import Mathlib

/-!
# Verification of the fair-batch core (`src/app.py`)

A shallow embedding of the fair-batch generator and its counter state
machine.  The Python module keeps two pieces of process-wide state:

* `appearance_counts : defaultdict(int)` — a mapping from integer items to
  integer appearance counts (insertion-ordered, unique keys);
* `session_config = {"N": 10, "k": 3, "start": 1}` — the active range
  configuration.

We model the dict as an insertion-ordered association list with unique
keys (`Counts`), the configuration as three integer fields of `AppState`,
and the two random primitives (`random.shuffle`, `random.sample`) as an
abstract `RandomSource` about which theorems assume only the properties
those primitives guarantee (permutation; sampling without replacement).

Counts are modelled as integers: every state reachable through
`generate_fair_batch` has integer counts, and the JSON import routines are
modelled on integer-valued objects (Python would accept and store
arbitrary JSON values there; no property below exercises that corner, and
the import model reports an error on non-integer count values).
-/

/-- A Python dict from `int` to `int`: insertion-ordered entries, and every
reachable dict has pairwise-distinct keys. -/
abbrev Counts := List (Int × Int)

/-- First entry with the given key (Python dict lookup; keys are unique in
  every reachable dict, so "first" is "the"). -/
def lookupKey (i : Int) : Counts → Option Int
  | [] => none
  | p :: ps => if p.1 = i then some p.2 else lookupKey i ps

/-- `appearance_counts.get(i, 0)`, which is also the value a
`defaultdict(int)` read returns. -/
def getCount (c : Counts) (i : Int) : Int :=
  (lookupKey i c).getD 0

/-- `d[i] = v` on a Python dict: update in place if the key exists,
otherwise append the new entry. -/
def setCount : Counts → Int → Int → Counts
  | [], i, v => [(i, v)]
  | p :: ps, i, v => if p.1 = i then (i, v) :: ps else p :: setCount ps i v

/-- A `defaultdict(int)` read `d[i]`: inserts the entry `(i, 0)` when the
key is absent (the value returned is `getCount`). -/
def touchCount (c : Counts) (i : Int) : Counts :=
  if (lookupKey i c).isSome then c else c ++ [(i, 0)]

/-- All the `defaultdict` reads performed by the list comprehension on
line 38 of `app.py`, in iteration order. -/
def touchAll (c : Counts) (l : List Int) : Counts :=
  l.foldl touchCount c

/-- `appearance_counts[i] += 1` on the `defaultdict`. -/
def incrCount (c : Counts) (i : Int) : Counts :=
  setCount c i (getCount c i + 1)

/-- The dict's key view, in insertion order. -/
def keysOf (c : Counts) : List Int :=
  c.map Prod.fst

/-- The invariant every Python dict enjoys: keys are pairwise distinct. -/
abbrev KeysNodup (c : Counts) : Prop :=
  (keysOf c).Nodup

/-- `list(range(start, start + N))`. -/
def fullRange (start N : Int) : List Int :=
  (List.range N.toNat).map (fun (j : Nat) => start + (j : Int))

/-- Python `min` over a list, `none` on the empty list (where Python raises
`ValueError`). -/
def minList : List Int → Option Int
  | [] => none
  | x :: xs =>
    match minList xs with
    | none => some x
    | some m => some (min x m)

/-- Insertion step for Python `sorted` on a list of integers. -/
def insertInt (x : Int) : List Int → List Int
  | [] => [x]
  | y :: ys => if x ≤ y then x :: y :: ys else y :: insertInt x ys

/-- Python `sorted` on a list of integers (insertion sort; the order, not
the algorithm, is what `sorted` guarantees). -/
def sortInts (l : List Int) : List Int :=
  l.foldr insertInt []

/-- Insertion step for Python `sorted` on `(item, count)` tuples, compared
lexicographically exactly as Python compares tuples. -/
def insertPair (p : Int × Int) : List (Int × Int) → List (Int × Int)
  | [] => [p]
  | q :: qs =>
    if p.1 < q.1 ∨ (p.1 = q.1 ∧ p.2 ≤ q.2) then p :: q :: qs else q :: insertPair p qs

/-- `format_counts_for_table` (`app.py` lines 14–17): the rows
`[[k, v] for k, v in sorted(counts_dict.items())]`.  (The Python early
return of `[]` on an empty dict coincides with sorting the empty list.) -/
def format_counts_for_table (c : Counts) : List (Int × Int) :=
  c.foldr insertPair []

-- ## Basic lemmas about the store

theorem lookupKey_setCount (c : Counts) (i j v : Int) :
    lookupKey j (setCount c i v) = if i = j then some v else lookupKey j c := by
  induction c with
  | nil => rfl
  | cons p ps ih =>
    by_cases hp : p.1 = i
    · simp only [setCount, hp, if_pos, lookupKey]
      by_cases hij : i = j
      · simp [hij]
      · simp [hij, hp, lookupKey, fun h : p.1 = j => hij (hp ▸ h)]
    · simp only [setCount, hp, if_neg, not_false_iff, lookupKey]
      by_cases hpj : p.1 = j
      · have hij : ¬ i = j := fun h => hp (by rw [h, hpj])
        simp [hpj, hij]
      · simp [hpj, ih]

theorem getCount_setCount (c : Counts) (i j v : Int) :
    getCount (setCount c i v) j = if i = j then v else getCount c j := by
  simp [getCount, lookupKey_setCount]
  split <;> rfl

theorem lookupKey_append (c d : Counts) (i : Int) :
    lookupKey i (c ++ d) = ((lookupKey i c).orElse (fun _ => lookupKey i d)) := by
  induction c with
  | nil => simp [lookupKey]
  | cons p ps ih =>
    by_cases hp : p.1 = i <;> simp [lookupKey, hp, ih]

theorem lookupKey_touchCount (c : Counts) (i j : Int) :
    lookupKey j (touchCount c i) =
      if (lookupKey j c).isSome then lookupKey j c
      else if i = j then some 0 else none := by
  unfold touchCount
  split
  · rename_i hsome
    cases hc : lookupKey j c with
    | some v => simp [hc]
    | none =>
      have hij : ¬ i = j := by
        intro h
        rw [h, hc] at hsome
        simp at hsome
      simp [hc, hij]
  · rw [lookupKey_append]
    cases hc : lookupKey j c with
    | some v => simp [hc]
    | none =>
      simp only [hc, Option.none_orElse, Option.isSome_none, Bool.false_eq_true,
        if_false]
      by_cases hij : i = j
      · simp [lookupKey, hij]
      · simp [lookupKey, hij]

theorem getCount_touchCount (c : Counts) (i j : Int) :
    getCount (touchCount c i) j = getCount c j := by
  simp only [getCount, lookupKey_touchCount]
  cases hc : lookupKey j c with
  | some v => simp
  | none =>
    simp only [Option.isSome_none, Bool.false_eq_true, if_false]
    by_cases hij : i = j <;> simp [hij]

theorem getCount_touchAll (c : Counts) (l : List Int) (j : Int) :
    getCount (touchAll c l) j = getCount c j := by
  induction l generalizing c with
  | nil => rfl
  | cons x xs ih =>
    rw [show touchAll c (x :: xs) = touchAll (touchCount c x) xs from rfl, ih,
      getCount_touchCount]

theorem lookupKey_isSome_touchCount (c : Counts) (i j : Int)
    (h : (lookupKey j c).isSome) : (lookupKey j (touchCount c i)).isSome := by
  rw [lookupKey_touchCount, if_pos h]
  exact h

theorem lookupKey_touchCount_self (c : Counts) (i : Int) :
    (lookupKey i (touchCount c i)).isSome := by
  rw [lookupKey_touchCount]
  cases hc : lookupKey i c with
  | some v => simp
  | none => simp

theorem lookupKey_isSome_touchAll (c : Counts) (l : List Int) (i : Int)
    (h : (lookupKey i c).isSome) : (lookupKey i (touchAll c l)).isSome := by
  induction l generalizing c with
  | nil => exact h
  | cons x xs ih =>
    rw [show touchAll c (x :: xs) = touchAll (touchCount c x) xs from rfl]
    exact ih (touchCount c x) (lookupKey_isSome_touchCount c x i h)

theorem lookupKey_touchAll_mem (c : Counts) (l : List Int) (i : Int) (h : i ∈ l) :
    (lookupKey i (touchAll c l)).isSome := by
  induction l generalizing c with
  | nil => cases h
  | cons x xs ih =>
    rw [show touchAll c (x :: xs) = touchAll (touchCount c x) xs from rfl]
    rcases List.mem_cons.mp h with h1 | h1
    · subst h1
      exact lookupKey_isSome_touchAll (touchCount c i) xs i (lookupKey_touchCount_self c i)
    · exact ih (touchCount c x) h1

theorem lookupKey_touchAll (c : Counts) (l : List Int) (j : Int) :
    lookupKey j (touchAll c l) =
      if (lookupKey j c).isSome then lookupKey j c
      else if j ∈ l then some 0 else none := by
  induction l generalizing c with
  | nil =>
    cases hc : lookupKey j c <;> simp [touchAll, hc]
  | cons x xs ih =>
    rw [show touchAll c (x :: xs) = touchAll (touchCount c x) xs from rfl, ih,
      lookupKey_touchCount]
    by_cases hs : (lookupKey j c).isSome
    · simp [hs]
    · simp only [hs, if_false, Bool.false_eq_true]
      by_cases hxj : x = j
      · simp [hxj, List.mem_cons]
      · have : ¬ j = x := fun h => hxj h.symm
        simp [hxj, List.mem_cons, this]

theorem lookupKey_incrCount (c : Counts) (i j : Int) :
    lookupKey j (incrCount c i) =
      if i = j then some (getCount c j + 1) else lookupKey j c := by
  unfold incrCount
  rw [lookupKey_setCount]
  by_cases hij : i = j
  · subst hij
    simp
  · simp [hij]

theorem getCount_incrCount (c : Counts) (i j : Int) :
    getCount (incrCount c i) j =
      if i = j then getCount c j + 1 else getCount c j := by
  simp only [getCount, lookupKey_incrCount]
  by_cases hij : i = j <;> simp [hij]

theorem getCount_foldl_incrCount (c : Counts) (l : List Int) (j : Int) :
    getCount (l.foldl incrCount c) j = getCount c j + (l.count j : Int) := by
  induction l generalizing c with
  | nil => simp
  | cons x xs ih =>
    rw [List.foldl_cons, ih, getCount_incrCount, List.count_cons]
    by_cases hxj : x = j
    · simp [hxj]
      omega
    · have : ¬ (x == j) = true := by simp [hxj]
      simp [hxj, this]

theorem lookupKey_foldl_incrCount_not_mem (c : Counts) (l : List Int) (j : Int)
    (h : j ∉ l) : lookupKey j (l.foldl incrCount c) = lookupKey j c := by
  induction l generalizing c with
  | nil => rfl
  | cons x xs ih =>
    rw [List.foldl_cons, ih (incrCount c x) (fun hm => h (List.mem_cons_of_mem x hm)),
      lookupKey_incrCount, if_neg (fun he => h (List.mem_cons.mpr (Or.inl he.symm)))]

theorem lookupKey_isSome_foldl_incrCount (c : Counts) (l : List Int) (j : Int)
    (h : (lookupKey j c).isSome) : (lookupKey j (l.foldl incrCount c)).isSome := by
  induction l generalizing c with
  | nil => exact h
  | cons x xs ih =>
    rw [List.foldl_cons]
    apply ih
    rw [lookupKey_incrCount]
    by_cases hxj : x = j
    · simp [hxj]
    · simp [hxj, h]

-- ## `minList` lemmas

theorem minList_none (l : List Int) (h : minList l = none) : l = [] := by
  cases l with
  | nil => rfl
  | cons x xs =>
    unfold minList at h
    cases hm : minList xs <;> rw [hm] at h <;> simp at h

theorem minList_le (l : List Int) : ∀ m, minList l = some m → ∀ x ∈ l, m ≤ x := by
  induction l with
  | nil => intro m h; simp [minList] at h
  | cons y ys ih =>
    intro m h x hx
    unfold minList at h
    cases hys : minList ys with
    | none =>
      rw [hys] at h
      simp at h
      subst h
      have hnil := minList_none ys hys
      subst hnil
      rcases List.mem_cons.mp hx with rfl | hx
      · exact le_refl _
      · cases hx
    | some m2 =>
      rw [hys] at h
      simp at h
      subst h
      rcases List.mem_cons.mp hx with rfl | hx
      · exact min_le_left _ _
      · exact le_trans (min_le_right _ _) (ih m2 hys x hx)

theorem minList_mem (l : List Int) : ∀ m, minList l = some m → m ∈ l := by
  induction l with
  | nil => intro m h; simp [minList] at h
  | cons y ys ih =>
    intro m h
    unfold minList at h
    cases hys : minList ys with
    | none =>
      rw [hys] at h
      simp at h
      subst h
      exact List.mem_cons_self y ys
    | some m2 =>
      rw [hys] at h
      simp at h
      subst h
      rcases le_total y m2 with hle | hle
      · rw [min_eq_left hle]
        exact List.mem_cons_self y ys
      · rw [min_eq_right hle]
        exact List.mem_cons_of_mem y (ih m2 hys)

theorem minList_isSome (l : List Int) (h : l ≠ []) : (minList l).isSome := by
  cases l with
  | nil => exact absurd rfl h
  | cons x xs =>
    unfold minList
    cases minList xs <;> simp

-- ## Sorting lemmas

theorem insertPair_perm (p : Int × Int) (l : List (Int × Int)) :
    List.Perm (insertPair p l) (p :: l) := by
  induction l with
  | nil => exact List.Perm.refl _
  | cons q qs ih =>
    unfold insertPair
    split
    · exact List.Perm.refl _
    · exact List.Perm.trans (List.Perm.cons q ih) (List.Perm.swap p q qs)

theorem format_counts_perm (c : Counts) :
    List.Perm (format_counts_for_table c) c := by
  induction c with
  | nil => exact List.Perm.refl _
  | cons p ps ih =>
    unfold format_counts_for_table
    rw [List.foldr_cons]
    exact List.Perm.trans (insertPair_perm p _) (List.Perm.cons p ih)

theorem mem_format_counts (a : Int × Int) (c : Counts) :
    a ∈ format_counts_for_table c ↔ a ∈ c :=
  (format_counts_perm c).mem_iff

theorem lookupKey_some_mem (c : Counts) (i v : Int) (h : lookupKey i c = some v) :
    (i, v) ∈ c := by
  induction c with
  | nil => simp [lookupKey] at h
  | cons p ps ih =>
    unfold lookupKey at h
    split at h
    · rename_i hp
      simp only [Option.some.injEq] at h
      obtain ⟨a, b⟩ := p
      simp only at hp h
      subst hp
      subst h
      exact List.mem_cons_self _ _
    · exact List.mem_cons_of_mem p (ih h)

-- ## `fullRange` lemmas

theorem mem_fullRange (start N i : Int) :
    i ∈ fullRange start N ↔ start ≤ i ∧ i < start + N := by
  unfold fullRange
  rw [List.mem_map]
  constructor
  · rintro ⟨j, hj, rfl⟩
    rw [List.mem_range] at hj
    omega
  · rintro ⟨h1, h2⟩
    refine ⟨(i - start).toNat, ?_, ?_⟩
    · rw [List.mem_range]
      omega
    · omega

theorem fullRange_nodup (start N : Int) : (fullRange start N).Nodup := by
  unfold fullRange
  refine List.Nodup.map ?_ (List.nodup_range _)
  intro a b hab
  dsimp only at hab
  omega

theorem length_fullRange (start N : Int) :
    (fullRange start N).length = N.toNat := by
  unfold fullRange
  rw [List.length_map, List.length_range]

-- ## Python decimal integer codec
--
-- `json.dumps` renders the integer keys of `appearance_counts` with
-- Python `str`; the import routines convert them back with `int(k)`.
-- We model both directions explicitly.

/-- A decimal digit as Python renders it. -/
def digitToChar : Nat → Char
  | 0 => '0'
  | 1 => '1'
  | 2 => '2'
  | 3 => '3'
  | 4 => '4'
  | 5 => '5'
  | 6 => '6'
  | 7 => '7'
  | 8 => '8'
  | 9 => '9'
  | _ => '?'

/-- Inverse of `digitToChar` on actual digit characters. -/
def charToDigit? (c : Char) : Option Nat :=
  if c = '0' then some 0
  else if c = '1' then some 1
  else if c = '2' then some 2
  else if c = '3' then some 3
  else if c = '4' then some 4
  else if c = '5' then some 5
  else if c = '6' then some 6
  else if c = '7' then some 7
  else if c = '8' then some 8
  else if c = '9' then some 9
  else none

/-- Python `str` on a natural number. -/
def pyStrNat (n : Nat) : String :=
  if n = 0 then "0" else ⟨((Nat.digits 10 n).map digitToChar).reverse⟩

/-- Python `str` on an integer — the form `json.dumps` gives the dict keys. -/
def pyStrInt : Int → String
  | Int.ofNat m => pyStrNat m
  | Int.negSucc m => ⟨'-' :: (pyStrNat (m + 1)).data⟩

/-- Accumulating decimal parse of a digit run. -/
def parseDigitsAux (acc : Nat) : List Char → Option Nat
  | [] => some acc
  | c :: cs =>
    match charToDigit? c with
    | none => none
    | some d => parseDigitsAux (acc * 10 + d) cs

/-- Python `int` on a string: an optional minus sign followed by a nonempty
run of decimal digits.  (Python `int` also tolerates whitespace, a plus
sign and underscores; keys produced by `json.dumps`, the only strings the
round-trip properties feed to this parser, never contain those.) -/
def pyIntParseList : List Char → Option Int
  | [] => none
  | c :: cs =>
    if c = '-' then
      match cs with
      | [] => none
      | _ :: _ => (parseDigitsAux 0 cs).map (fun (n : Nat) => -(n : Int))
    else (parseDigitsAux 0 (c :: cs)).map (fun (n : Nat) => (n : Int))

def pyIntParse (s : String) : Option Int :=
  pyIntParseList s.data

theorem charToDigit?_digitToChar (d : Nat) (h : d < 10) :
    charToDigit? (digitToChar d) = some d := by
  interval_cases d <;> decide

theorem digitToChar_ne_minus (d : Nat) : digitToChar d ≠ '-' := by
  unfold digitToChar
  split <;> decide

theorem parseDigitsAux_append (acc : Nat) (l1 l2 : List Char) :
    parseDigitsAux acc (l1 ++ l2) =
      match parseDigitsAux acc l1 with
      | none => none
      | some a => parseDigitsAux a l2 := by
  induction l1 generalizing acc with
  | nil => rfl
  | cons c cs ih =>
    rw [List.cons_append]
    simp only [parseDigitsAux]
    cases hc : charToDigit? c with
    | none => rfl
    | some d => exact ih (acc * 10 + d)

theorem parseDigitsAux_digits (l : List Nat) :
    ∀ acc, (∀ d ∈ l, d < 10) →
      parseDigitsAux acc ((l.map digitToChar).reverse) =
        some (acc * 10 ^ l.length + Nat.ofDigits 10 l) := by
  induction l with
  | nil =>
    intro acc _
    simp [parseDigitsAux, Nat.ofDigits]
  | cons d ds ih =>
    intro acc h
    have hd : d < 10 := h d (List.mem_cons_self d ds)
    have hds : ∀ x ∈ ds, x < 10 := fun x hx => h x (List.mem_cons_of_mem d hx)
    rw [List.map_cons, List.reverse_cons, parseDigitsAux_append, ih acc hds]
    show parseDigitsAux (acc * 10 ^ ds.length + Nat.ofDigits 10 ds) [digitToChar d] =
      some (acc * 10 ^ (d :: ds).length + Nat.ofDigits 10 (d :: ds))
    unfold parseDigitsAux
    rw [charToDigit?_digitToChar d hd]
    show some ((acc * 10 ^ ds.length + Nat.ofDigits 10 ds) * 10 + d) = _
    rw [Nat.ofDigits_cons, List.length_cons]
    congr 1
    ring

theorem parseDigits_pyStrNat (n : Nat) :
    parseDigitsAux 0 (pyStrNat n).data = some n := by
  unfold pyStrNat
  by_cases h0 : n = 0
  · subst h0
    decide
  · rw [if_neg h0]
    have hlt : ∀ d ∈ Nat.digits 10 n, d < 10 :=
      fun d hd => Nat.digits_lt_base (by norm_num) hd
    have := parseDigitsAux_digits (Nat.digits 10 n) 0 hlt
    rw [Nat.ofDigits_digits, Nat.zero_mul, Nat.zero_add] at this
    exact this

theorem pyStrNat_data_ne_nil (n : Nat) : (pyStrNat n).data ≠ [] := by
  unfold pyStrNat
  by_cases h0 : n = 0
  · subst h0
    decide
  · rw [if_neg h0]
    simp only [List.reverse_eq_nil_iff, List.map_eq_nil_iff, ne_eq]
    exact Nat.digits_ne_nil_iff_ne_zero.mpr h0

theorem pyStrNat_head_ne_minus (n : Nat) (c : Char) (h : c ∈ (pyStrNat n).data) :
    ¬ c = '-' := by
  unfold pyStrNat at h
  by_cases h0 : n = 0
  · subst h0
    simp at h
    subst h
    decide
  · rw [if_neg h0] at h
    rw [List.mem_reverse, List.mem_map] at h
    obtain ⟨d, _, rfl⟩ := h
    exact digitToChar_ne_minus d

theorem pyIntParse_pyStrNat (n : Nat) : pyIntParse (pyStrNat n) = some (n : Int) := by
  obtain ⟨c, cs, hdata⟩ := List.exists_cons_of_ne_nil (pyStrNat_data_ne_nil n)
  have hc : ¬ c = '-' :=
    pyStrNat_head_ne_minus n c (by rw [hdata]; exact List.mem_cons_self c cs)
  unfold pyIntParse
  rw [hdata]
  simp only [pyIntParseList, if_neg hc]
  rw [← hdata, parseDigits_pyStrNat]
  rfl

theorem pyIntParse_pyStrInt (i : Int) : pyIntParse (pyStrInt i) = some i := by
  cases i with
  | ofNat m => exact pyIntParse_pyStrNat m
  | negSucc m =>
    show pyIntParseList ('-' :: (pyStrNat (m + 1)).data) = some (Int.negSucc m)
    obtain ⟨c, cs, hdata⟩ := List.exists_cons_of_ne_nil (pyStrNat_data_ne_nil (m + 1))
    rw [hdata]
    simp only [pyIntParseList, if_true]
    show (parseDigitsAux 0 (c :: cs)).map (fun (n : Nat) => -(n : Int)) =
      some (Int.negSucc m)
    rw [← hdata, parseDigits_pyStrNat]
    show some (-(((m + 1 : Nat) : Int))) = some (Int.negSucc m)
    rw [Int.negSucc_eq]
    push_cast
    ring_nf

-- ## JSON trees, application state, random source

/-- A JSON value as `json.loads` returns it, restricted to the shapes the
persistence format uses: numbers and objects.  The model works at the tree
level — `json.loads(json.dumps(tree))` is the identity — so the text layer
is elided, and text on which `json.loads` raises is represented by feeding
`none` to the load routines. -/
inductive Json where
  | num (n : Int)
  | obj (fields : List (String × Json))

/-- Field list of an object, `[]` on a number. -/
def jsonFields : Json → List (String × Json)
  | Json.num _ => []
  | Json.obj fields => fields

/-- First field with the given key (keys of a parsed JSON object are
unique, so "first" is "the"). -/
def lookupField (key : String) : List (String × Json) → Option Json
  | [] => none
  | p :: ps => if p.1 = key then some p.2 else lookupField key ps

/-- `contents[key]`: `KeyError` when the key is missing, `TypeError` when
`contents` is not a dict. -/
def getField (j : Json) (key : String) : Except String Json :=
  match j with
  | Json.num _ => Except.error "TypeError: not subscriptable"
  | Json.obj fields =>
    match lookupField key fields with
    | some v => Except.ok v
    | none => Except.error s!"KeyError: {key}"

/-- The process-wide session state: `appearance_counts` plus
`session_config`. -/
structure AppState where
  counts : Counts
  N : Int
  k : Int
  start : Int
deriving DecidableEq

/-- The state at process start: empty counts and
`session_config = {"N": 10, "k": 3, "start": 1}`. -/
def initialState : AppState :=
  { counts := [], N := 10, k := 3, start := 1 }

/-- The two random primitives `generate_fair_batch` draws on:
`random.shuffle` (modelled as a pure reordering) and `random.sample`. -/
structure RandomSource where
  shuffle : List Int → List Int
  sample : List Int → Nat → List Int

/-- What Python's `random` module guarantees for every draw:
`random.shuffle` permutes its list, and `random.sample l n` (defined for
`n ≤ |l|`) returns `n` positions of `l` drawn without replacement — hence
its result has no duplicates whenever `l` has none. -/
def RandomSource.Valid (r : RandomSource) : Prop :=
  (∀ l : List Int, List.Perm (r.shuffle l) l) ∧
  (∀ (l : List Int) (n : Nat), n ≤ l.length →
    (r.sample l n).length = n ∧ (∀ x ∈ r.sample l n, x ∈ l) ∧
      (l.Nodup → (r.sample l n).Nodup))

/-- A degenerate but legal random source — `shuffle` keeps the order,
`sample` takes a prefix — used to instantiate theorems concretely. -/
def idSource : RandomSource :=
  { shuffle := fun l => l, sample := fun l n => l.take n }

/-- What one `generate_fair_batch` call returns to the UI: the message
(warning plus batch rendering, or the validation error), the rendered
counts table, and the value of the local `batch` list (`[]` on the
validation-failure return, where no batch is produced). -/
structure GenResult where
  message : String
  table : List (Int × Int)
  batch : List Int
deriving DecidableEq

/-- Line 37 of `app.py`: `min(appearance_counts.get(i, 0) for i in full_range)`
(`none` when the range is empty, where Python raises `ValueError`). -/
def minCountOf (c : Counts) (N start : Int) : Option Int :=
  minList ((fullRange start N).map (fun i => getCount c i))

/-- Line 38 of `app.py`, value view: the minimum-count tier
`[i for i in full_range if appearance_counts[i] == min_count]`.  The
comprehension's `defaultdict` side effect (inserting missing keys with
value 0) is modelled separately by `touchAll`; it never changes the values
the comparison reads. -/
def eligibleOf (c : Counts) (N start : Int) : List Int :=
  match minCountOf c N start with
  | none => []
  | some m => (fullRange start N).filter (fun i => getCount c i == m)

/-- The local `batch` list as `generate_fair_batch` builds it (lines 41–47
of `app.py`): the `while` loop pops from the end of the shuffled eligible
tier until `k` items are taken or the tier is exhausted, then — only when
the batch is still short — `random.sample` fills it from the in-range
items not already in the batch. -/
def genBatch (r : RandomSource) (c : Counts) (N k start : Int) : List Int :=
  let batch0 := (r.shuffle (eligibleOf c N start)).reverse.take k.toNat
  if (batch0.length : Int) < k then
    batch0 ++ r.sample ((fullRange start N).filter (fun i => decide (i ∉ batch0)))
      (k - (batch0.length : Int)).toNat
  else batch0

/-- The counts dict after one successful `generate_fair_batch` call: the
comprehension on line 38 has inserted a (possibly zero) entry for every
in-range item, and lines 49–50 incremented each batch member once. -/
def genCounts (r : RandomSource) (c : Counts) (N k start : Int) : Counts :=
  (genBatch r c N k start).foldl incrCount (touchAll c (fullRange start N))

/-- The out-of-range warning of lines 30–34 of `app.py` (empty when no
stale keys exist). -/
def genWarning (c : Counts) (N start : Int) : String :=
  let full_range := fullRange start N
  let out_of_range := sortInts ((keysOf c).filter (fun i => decide (i ∉ full_range)))
  let upper := start + N - 1
  if out_of_range = [] then ""
  else s!"⚠️ Warning: appearance_counts contains keys outside the range [{start}, {upper}]: {out_of_range}.\nThese will be ignored."

/-- `generate_fair_batch` (`app.py` lines 19–53).  Returns the mutated
state and the result; `Except.error` marks the one uncaught exception path
(empty range: `min()` of an empty sequence raises `ValueError` after the
config update but before any counts mutation).  `random.sample` own
`ValueError` cases are unreachable: whenever the fill branch runs under
`k ≤ N`, the amount requested is positive and at most the number of
remaining items. -/
def generate_fair_batch (r : RandomSource) (st : AppState) (N k start : Int) :
    AppState × Except String GenResult :=
  let st1 : AppState := { st with N := N, k := k, start := start }
  if k > N then
    (st1, Except.ok { message := s!"❌ Batch size {k} cannot exceed N={N}.",
                      table := [], batch := [] })
  else
    match minCountOf st.counts N start with
    | none => (st1, Except.error "ValueError: min() arg is an empty sequence")
    | some _ =>
      let batch := genBatch r st.counts N k start
      let countsFinal := genCounts r st.counts N k start
      let warning := genWarning st.counts N start
      let batch_str := String.intercalate ", " (batch.map toString)
      let message := (if warning = "" then "" else warning ++ "\n\n") ++ batch_str
      ({ st1 with counts := countsFinal },
       Except.ok { message := message,
                   table := format_counts_for_table countsFinal,
                   batch := batch })

-- ## Persistence codec (`app.py` lines 80–131)

/-- `save_counts_only` minus the temp-file plumbing: the JSON tree of
`json.dumps(dict(appearance_counts))`.  `json.dumps` renders each integer
key as its decimal string. -/
def save_counts_json (st : AppState) : Json :=
  Json.obj (st.counts.map (fun p => (pyStrInt p.1, Json.num p.2)))

/-- `save_full_progress` minus the temp-file plumbing. -/
def save_full_json (st : AppState) : Json :=
  Json.obj [("appearance_counts", save_counts_json st),
            ("N", Json.num st.N), ("k", Json.num st.k),
            ("start", Json.num st.start)]

/-- The dict comprehension `{int(k): v for k, v in contents.items()}`,
item by item in iteration order; a failure aborts the comprehension before
the enclosing assignment happens.  Count values are modelled as integers
(see the header note); a non-integer value is reported as an error here,
where Python would store it unchanged — no property below reaches that
corner. -/
def parseCountsFields (acc : Counts) : List (String × Json) → Except String Counts
  | [] => Except.ok acc
  | (key, v) :: rest =>
    match pyIntParse key with
    | none => Except.error s!"ValueError: invalid literal for int with base 10: {key}"
    | some ik =>
      match v with
      | Json.num n => parseCountsFields (setCount acc ik n) rest
      | Json.obj _ => Except.error "unsupported count value"

/-- `defaultdict(int, {int(k): v for k, v in contents.items()})`;
`AttributeError` when `contents` is not a dict. -/
def parseCountsDict : Json → Except String Counts
  | Json.num _ => Except.error "AttributeError: no attribute items"
  | Json.obj fields => parseCountsFields [] fields

/-- `load_counts_from_text` (`app.py` lines 97–117).  The argument is the
parsed JSON tree of the pasted text, or `none` when `json.loads` raises.
Returns the new state and the `(message, table)` pair handed to the UI. -/
def load_counts_from_text (st : AppState) (txt : Option Json) :
    AppState × String × List (Int × Int) :=
  match txt with
  | none =>
    (st, "Error loading data: json.decoder.JSONDecodeError",
      format_counts_for_table st.counts)
  | some contents =>
    match parseCountsDict contents with
    | Except.error e =>
      (st, s!"Error loading data: {e}", format_counts_for_table st.counts)
    | Except.ok newCounts =>
      let st1 : AppState := { st with counts := newCounts }
      let valid_range := fullRange st1.start st1.N
      let outside_keys :=
        sortInts ((keysOf st1.counts).filter (fun i => decide (i ∉ valid_range)))
      let lower := st1.start
      let upper := st1.start + st1.N - 1
      let warning : String :=
        if outside_keys = [] then "✅ Appearance counts loaded successfully."
        else s!"⚠️ Warning: Loaded counts contain numbers outside current range [{lower}, {upper}]: {outside_keys}.\nConsider adjusting N/start, or use Full Load if unsure."
      (st1, warning, format_counts_for_table st1.counts)

/-- `load_full_from_text` (`app.py` lines 119–131), mirroring the Python
statement order faithfully: the counts dict is rebuilt and assigned to the
global BEFORE `session_config` is read or written, so a `KeyError` on
`"N"`, `"k"` or `"start"` leaves the freshly imported counts installed
alongside the old config.  (`session_config.update` itself is atomic: its
argument dict is fully built — all three lookups succeed — before any
config field changes.)  A present-but-non-integer config value is reported
as an error by the model, where Python would store it unchanged; no
property below reaches that corner. -/
def load_full_from_text (st : AppState) (txt : Option Json) :
    AppState × String × List (Int × Int) × Int × Int × Int :=
  match txt with
  | none =>
    (st, "Error loading data: json.decoder.JSONDecodeError",
      format_counts_for_table st.counts, st.N, st.k, st.start)
  | some contents =>
    match getField contents "appearance_counts" with
    | Except.error e =>
      (st, s!"Error loading data: {e}", format_counts_for_table st.counts,
        st.N, st.k, st.start)
    | Except.ok ac =>
      match parseCountsDict ac with
      | Except.error e =>
        (st, s!"Error loading data: {e}", format_counts_for_table st.counts,
          st.N, st.k, st.start)
      | Except.ok newCounts =>
        let st1 : AppState := { st with counts := newCounts }
        match getField contents "N", getField contents "k",
            getField contents "start" with
        | Except.ok (Json.num vN), Except.ok (Json.num vk),
            Except.ok (Json.num vstart) =>
          let st2 : AppState := { st1 with N := vN, k := vk, start := vstart }
          (st2, "✅ Full progress restored.", format_counts_for_table st2.counts,
            vN, vk, vstart)
        | Except.error e, _, _ =>
          (st1, s!"Error loading data: {e}", format_counts_for_table st1.counts,
            st1.N, st1.k, st1.start)
        | _, Except.error e, _ =>
          (st1, s!"Error loading data: {e}", format_counts_for_table st1.counts,
            st1.N, st1.k, st1.start)
        | _, _, Except.error e =>
          (st1, s!"Error loading data: {e}", format_counts_for_table st1.counts,
            st1.N, st1.k, st1.start)
        | _, _, _ =>
          (st1, "Error loading data: unsupported config value",
            format_counts_for_table st1.counts, st1.N, st1.k, st1.start)

-- ## Structure of one `generate_fair_batch` call

theorem eligibleOf_eq (c : Counts) (N start m : Int)
    (hm : minCountOf c N start = some m) :
    eligibleOf c N start = (fullRange start N).filter (fun i => getCount c i == m) := by
  unfold eligibleOf
  rw [hm]

theorem mem_eligibleOf (c : Counts) (N start : Int) (i : Int)
    (h : i ∈ eligibleOf c N start) : i ∈ fullRange start N := by
  unfold eligibleOf at h
  cases hm : minCountOf c N start with
  | none => rw [hm] at h; cases h
  | some m => rw [hm] at h; exact List.mem_of_mem_filter h

theorem getCount_of_mem_eligibleOf (c : Counts) (N start m : Int)
    (hm : minCountOf c N start = some m) (i : Int) (h : i ∈ eligibleOf c N start) :
    getCount c i = m := by
  rw [eligibleOf_eq c N start m hm] at h
  have hb : (getCount c i == m) = true :=
    List.of_mem_filter (p := fun i => getCount c i == m) h
  exact eq_of_beq hb

theorem eligibleOf_nodup (c : Counts) (N start : Int) :
    (eligibleOf c N start).Nodup := by
  unfold eligibleOf
  cases minCountOf c N start with
  | none => exact List.nodup_nil
  | some m => exact (fullRange_nodup start N).filter _

theorem minCountOf_le (c : Counts) (N start m : Int)
    (hm : minCountOf c N start = some m) (i : Int) (hi : i ∈ fullRange start N) :
    m ≤ getCount c i :=
  minList_le _ m hm _ (List.mem_map_of_mem _ hi)

theorem minCountOf_attained (c : Counts) (N start m : Int)
    (hm : minCountOf c N start = some m) :
    ∃ i ∈ fullRange start N, getCount c i = m := by
  have h := minList_mem _ m hm
  rw [List.mem_map] at h
  obtain ⟨i, hi, hgi⟩ := h
  exact ⟨i, hi, hgi⟩

theorem minCountOf_isSome (c : Counts) (N start : Int) (hN : 1 ≤ N) :
    ∃ m, minCountOf c N start = some m := by
  unfold minCountOf
  have hne : (fullRange start N).map (fun i => getCount c i) ≠ [] := by
    intro hnil
    have hlen := congrArg List.length hnil
    rw [List.length_map, length_fullRange] at hlen
    simp only [List.length_nil] at hlen
    omega
  obtain ⟨m, hm⟩ := Option.isSome_iff_exists.mp (minList_isSome _ hne)
  exact ⟨m, hm⟩

theorem genBatch_no_fill (r : RandomSource) (hr : r.Valid) (c : Counts)
    (N k start : Int) (hk : k ≤ ((eligibleOf c N start).length : Int)) :
    genBatch r c N k start = (r.shuffle (eligibleOf c N start)).reverse.take k.toNat := by
  have hlen : (r.shuffle (eligibleOf c N start)).length = (eligibleOf c N start).length :=
    (hr.1 _).length_eq
  simp only [genBatch]
  rw [if_neg]
  rw [List.length_take, List.length_reverse, hlen]
  omega

theorem take_reverse_shuffle_subset (r : RandomSource) (hr : r.Valid) (c : Counts)
    (N k start : Int) (x : Int)
    (hx : x ∈ (r.shuffle (eligibleOf c N start)).reverse.take k.toNat) :
    x ∈ eligibleOf c N start :=
  (hr.1 _).mem_iff.mp (List.mem_reverse.mp (List.take_subset _ _ hx))

theorem take_reverse_shuffle_nodup (r : RandomSource) (hr : r.Valid) (c : Counts)
    (N k start : Int) :
    ((r.shuffle (eligibleOf c N start)).reverse.take k.toNat).Nodup :=
  (List.take_sublist _ _).nodup
    (List.nodup_reverse.mpr ((hr.1 _).nodup_iff.mpr (eligibleOf_nodup c N start)))

theorem genBatch_spec (r : RandomSource) (hr : r.Valid) (c : Counts)
    (N k start : Int) (hk1 : 1 ≤ k) (hkN : k ≤ N) :
    ((genBatch r c N k start).length : Int) = k ∧ (genBatch r c N k start).Nodup ∧
      ∀ x ∈ genBatch r c N k start, x ∈ fullRange start N := by
  have hlenS : (r.shuffle (eligibleOf c N start)).length = (eligibleOf c N start).length :=
    (hr.1 _).length_eq
  have hSsub := take_reverse_shuffle_subset r hr c N k start
  have hSnodup := take_reverse_shuffle_nodup r hr c N k start
  have hSmemR : ∀ x ∈ (r.shuffle (eligibleOf c N start)).reverse.take k.toNat,
      x ∈ fullRange start N :=
    fun x hx => mem_eligibleOf c N start x (hSsub x hx)
  have hSlen : ((r.shuffle (eligibleOf c N start)).reverse.take k.toNat).length =
      min k.toNat (eligibleOf c N start).length := by
    rw [List.length_take, List.length_reverse, hlenS]
  simp only [genBatch]
  split
  · rename_i hfill
    rw [hSlen] at hfill
    -- the fill branch: sample from the remaining in-range items
    have hRnodup : ((fullRange start N).filter
        (fun i => decide (i ∉ (r.shuffle (eligibleOf c N start)).reverse.take k.toNat))).Nodup :=
      (fullRange_nodup start N).filter _
    have hpart := List.length_eq_length_filter_add
      (l := fullRange start N)
      (fun i => decide (i ∉ (r.shuffle (eligibleOf c N start)).reverse.take k.toNat))
    have hperm : List.Perm
        ((fullRange start N).filter
          (fun i => !(decide (i ∉ (r.shuffle (eligibleOf c N start)).reverse.take k.toNat))))
        ((r.shuffle (eligibleOf c N start)).reverse.take k.toNat) := by
      rw [List.perm_ext_iff_of_nodup ((fullRange_nodup start N).filter _) hSnodup]
      intro a
      rw [List.mem_filter]
      constructor
      · rintro ⟨_, ha⟩
        simpa using ha
      · intro ha
        exact ⟨hSmemR a ha, by simpa using ha⟩
    have hlenR : ((fullRange start N).filter
        (fun i => decide (i ∉ (r.shuffle (eligibleOf c N start)).reverse.take k.toNat))).length
        = N.toNat - min k.toNat (eligibleOf c N start).length := by
      have h2 := hperm.length_eq
      rw [hSlen] at h2
      rw [length_fullRange] at hpart
      omega
    have hn : (k - ((min k.toNat (eligibleOf c N start).length : Nat) : Int)).toNat ≤
        ((fullRange start N).filter
          (fun i => decide (i ∉ (r.shuffle (eligibleOf c N start)).reverse.take k.toNat))).length := by
      rw [hlenR]
      omega
    rw [hSlen]
    obtain ⟨hs1, hs2, hs3⟩ := hr.2 _ _ hn
    refine ⟨?_, ?_, ?_⟩
    · rw [List.length_append, hSlen, hs1]
      push_cast
      omega
    · rw [List.nodup_append]
      refine ⟨hSnodup, hs3 hRnodup, ?_⟩
      intro a ha hb
      have := hs2 a hb
      rw [List.mem_filter] at this
      have hdec := this.2
      simp only [decide_eq_true_eq] at hdec
      exact hdec ha
    · intro x hx
      rcases List.mem_append.mp hx with hx | hx
      · exact hSmemR x hx
      · exact List.mem_of_mem_filter (hs2 x hx)
  · rename_i hfill
    refine ⟨?_, hSnodup, hSmemR⟩
    rw [hSlen]
    rw [hSlen] at hfill
    omega

theorem genBatch_subset_eligible (r : RandomSource) (hr : r.Valid) (c : Counts)
    (N k start : Int) (hk : k ≤ ((eligibleOf c N start).length : Int)) :
    (∀ x ∈ genBatch r c N k start, x ∈ eligibleOf c N start) ∧
      (genBatch r c N k start).Nodup := by
  rw [genBatch_no_fill r hr c N k start hk]
  exact ⟨take_reverse_shuffle_subset r hr c N k start,
    take_reverse_shuffle_nodup r hr c N k start⟩

theorem generate_validation (r : RandomSource) (st : AppState)
    (N k start : Int) (h : k > N) :
    generate_fair_batch r st N k start =
      ({ st with N := N, k := k, start := start },
       Except.ok { message := s!"❌ Batch size {k} cannot exceed N={N}.",
                   table := [], batch := [] }) := by
  simp only [generate_fair_batch]
  rw [if_pos h]

theorem generate_crash (r : RandomSource) (st : AppState)
    (N k start : Int) (hk : ¬ k > N) (hm : minCountOf st.counts N start = none) :
    generate_fair_batch r st N k start =
      ({ st with N := N, k := k, start := start },
       Except.error "ValueError: min() arg is an empty sequence") := by
  simp only [generate_fair_batch]
  rw [if_neg hk, hm]

theorem generate_main (r : RandomSource) (st : AppState)
    (N k start m : Int) (hk : ¬ k > N) (hm : minCountOf st.counts N start = some m) :
    (generate_fair_batch r st N k start).1 =
      { st with N := N, k := k, start := start,
                counts := genCounts r st.counts N k start } ∧
    ∃ msg, (generate_fair_batch r st N k start).2 =
      Except.ok { message := msg,
                  table := format_counts_for_table (genCounts r st.counts N k start),
                  batch := genBatch r st.counts N k start } := by
  simp only [generate_fair_batch]
  rw [if_neg hk, hm]
  exact ⟨rfl, _, rfl⟩

-- ## The fairness invariant

/-- All in-range counts take one of two adjacent values. -/
def NearlyEqual (c : Counts) (N start : Int) : Prop :=
  ∃ m : Int, ∀ i ∈ fullRange start N, getCount c i = m ∨ getCount c i = m + 1

theorem getCount_genCounts (r : RandomSource) (c : Counts) (N k start : Int)
    (hnodup : (genBatch r c N k start).Nodup) (i : Int) :
    getCount (genCounts r c N k start) i =
      getCount c i + (if i ∈ genBatch r c N k start then 1 else 0) := by
  unfold genCounts
  rw [getCount_foldl_incrCount, getCount_touchAll]
  by_cases hmem : i ∈ genBatch r c N k start
  · rw [if_pos hmem, List.count_eq_one_of_mem hnodup hmem]
    norm_num
  · rw [if_neg hmem, List.count_eq_zero_of_not_mem hmem]
    norm_num

theorem generate_preserves_nearlyEqual (r : RandomSource) (hr : r.Valid)
    (st : AppState) (N k start : Int)
    (hk : k ≤ ((eligibleOf st.counts N start).length : Int))
    (hinv : NearlyEqual st.counts N start) :
    NearlyEqual (generate_fair_batch r st N k start).1.counts N start := by
  by_cases hkN : k > N
  · rw [generate_validation r st N k start hkN]
    exact hinv
  · cases hm : minCountOf st.counts N start with
    | none =>
      rw [generate_crash r st N k start hkN hm]
      exact hinv
    | some mc =>
      rw [(generate_main r st N k start mc hkN hm).1]
      show NearlyEqual (genCounts r st.counts N k start) N start
      obtain ⟨hsub, hnodup⟩ := genBatch_subset_eligible r hr st.counts N k start hk
      obtain ⟨m, hm2⟩ := hinv
      obtain ⟨i0, hi0, hgi0⟩ := minCountOf_attained st.counts N start mc hm
      have hmc : ∀ i ∈ fullRange start N,
          getCount st.counts i = mc ∨ getCount st.counts i = mc + 1 := by
        intro i hi
        have h1 := hm2 i hi
        have h2 := hm2 i0 hi0
        have h3 := minCountOf_le st.counts N start mc hm i hi
        omega
      refine ⟨mc, ?_⟩
      intro i hi
      rw [getCount_genCounts r st.counts N k start hnodup i]
      by_cases hmem : i ∈ genBatch r st.counts N k start
      · rw [if_pos hmem]
        have hgi : getCount st.counts i = mc :=
          getCount_of_mem_eligibleOf st.counts N start mc hm i (hsub i hmem)
        omega
      · rw [if_neg hmem]
        have := hmc i hi
        omega

/-- A sequence of `generate` calls with fixed `(N, start)`: each entry
gives the batch size `k` and the random draws of that call. -/
def runCalls (N start : Int) : AppState → List (Int × RandomSource) → AppState
  | st, [] => st
  | st, c :: rest => runCalls N start (generate_fair_batch c.2 st N c.1 start).1 rest

/-- Every call of the run uses an honest random source and asks for at
most the size of the minimum-count tier as it stands at that call. -/
def ValidRun (N start : Int) : AppState → List (Int × RandomSource) → Prop
  | _, [] => True
  | st, c :: rest =>
    c.2.Valid ∧ c.1 ≤ ((eligibleOf st.counts N start).length : Int) ∧
      ValidRun N start (generate_fair_batch c.2 st N c.1 start).1 rest

theorem runCalls_nearlyEqual (N start : Int) (calls : List (Int × RandomSource)) :
    ∀ st : AppState, ValidRun N start st calls → NearlyEqual st.counts N start →
      NearlyEqual (runCalls N start st calls).counts N start := by
  induction calls with
  | nil => exact fun st _ hinv => hinv
  | cons c rest ih =>
    intro st hvr hinv
    obtain ⟨hcv, hck, hrest⟩ := hvr
    exact ih _ hrest (generate_preserves_nearlyEqual c.2 hcv st N c.1 start hck hinv)

theorem idSource_valid : idSource.Valid := by
  constructor
  · intro l
    exact List.Perm.refl l
  · intro l n hn
    refine ⟨?_, ?_, ?_⟩
    · show (l.take n).length = n
      rw [List.length_take]
      omega
    · intro x hx
      exact List.take_subset n l hx
    · intro hnd
      exact (List.take_sublist n l).nodup hnd

-- ## The claims

/-- C1: for every counter-store state and every input `(N, k, start)` with
`1 ≤ k ≤ N`, and any honest random source, `generate` returns a batch of
exactly `k` pairwise-distinct items, each in `[start, start + N)`. -/
theorem C1_generate_batch_size (r : RandomSource) (hr : r.Valid) (st : AppState)
    (N k start : Int) (hk1 : 1 ≤ k) (hkN : k ≤ N) :
    ∃ res : GenResult,
      (generate_fair_batch r st N k start).2 = Except.ok res ∧
      ((res.batch.length : Int) = k ∧ res.batch.Nodup ∧
        ∀ x ∈ res.batch, start ≤ x ∧ x < start + N) := by
  have hk : ¬ k > N := by omega
  obtain ⟨m, hm⟩ := minCountOf_isSome st.counts N start (le_trans hk1 hkN)
  obtain ⟨hstate, msg, hres⟩ := generate_main r st N k start m hk hm
  obtain ⟨hlen, hnodup, hmem⟩ := genBatch_spec r hr st.counts N k start hk1 hkN
  exact ⟨_, hres, hlen, hnodup,
    fun x hx => (mem_fullRange start N x).mp (hmem x hx)⟩

theorem C1_witness :
    ∃ res : GenResult,
      (generate_fair_batch idSource initialState 3 2 1).2 = Except.ok res ∧
      ((res.batch.length : Int) = 2 ∧ res.batch.Nodup ∧
        ∀ x ∈ res.batch, 1 ≤ x ∧ x < 1 + 3) :=
  C1_generate_batch_size idSource idSource_valid initialState 3 2 1
    (by norm_num) (by norm_num)

/-- C2: over any sequence of `generate` calls with fixed `(N, start)`
starting from the empty store, in which every call draws at most the size
of the then-current minimum-count tier, all in-range appearance counts
stay within 1 of each other — for every choice of the random draws. -/
theorem C2_fairness_bound (N start : Int) (calls : List (Int × RandomSource))
    (h : ValidRun N start initialState calls) :
    ∀ i ∈ fullRange start N, ∀ j ∈ fullRange start N,
      |getCount (runCalls N start initialState calls).counts i -
        getCount (runCalls N start initialState calls).counts j| ≤ 1 := by
  have hinv : NearlyEqual initialState.counts N start :=
    ⟨0, fun i _ => Or.inl rfl⟩
  obtain ⟨m, hm⟩ := runCalls_nearlyEqual N start calls initialState h hinv
  intro i hi j hj
  have h1 := hm i hi
  have h2 := hm j hj
  rw [abs_le]
  omega

theorem C2_witness :
    |getCount (runCalls 2 0 initialState [(1, idSource)]).counts 0 -
      getCount (runCalls 2 0 initialState [(1, idSource)]).counts 1| ≤ 1 :=
  C2_fairness_bound 2 0 [(1, idSource)]
    ⟨idSource_valid, by decide, trivial⟩ 0 (by decide) 1 (by decide)

/-- C4: a `generate` call with `k > N` returns the validation-error
message with an empty table and no batch, and leaves the counter store
untouched (its `counts` component is exactly the prior one: no counter is
incremented or created). -/
theorem C4_validation_no_mutation (r : RandomSource) (st : AppState)
    (N k start : Int) (h : k > N) :
    (generate_fair_batch r st N k start).1.counts = st.counts ∧
    (generate_fair_batch r st N k start).2 =
      Except.ok { message := s!"❌ Batch size {k} cannot exceed N={N}.",
                  table := [], batch := [] } := by
  rw [generate_validation r st N k start h]
  exact ⟨rfl, rfl⟩

theorem C4_witness :
    (generate_fair_batch idSource initialState 5 6 1).1.counts = initialState.counts ∧
    (generate_fair_batch idSource initialState 5 6 1).2 =
      Except.ok { message := s!"❌ Batch size {(6 : Int)} cannot exceed N={(5 : Int)}.",
                  table := [], batch := [] } :=
  C4_validation_no_mutation idSource initialState 5 6 1 (by norm_num)

/-- C5: every `generate` call — validation failures and the empty-range
exception path included — adopts its arguments `(N, k, start)` as the new
`session_config` (the adoption on line 21 of `app.py` precedes the
`k > N` check on line 22). -/
theorem C5_config_always_adopted (r : RandomSource) (st : AppState)
    (N k start : Int) :
    (generate_fair_batch r st N k start).1.N = N ∧
    (generate_fair_batch r st N k start).1.k = k ∧
    (generate_fair_batch r st N k start).1.start = start := by
  by_cases hk : k > N
  · rw [generate_validation r st N k start hk]
    exact ⟨rfl, rfl, rfl⟩
  · cases hm : minCountOf st.counts N start with
    | none =>
      rw [generate_crash r st N k start hk hm]
      exact ⟨rfl, rfl, rfl⟩
    | some m =>
      rw [(generate_main r st N k start m hk hm).1]
      exact ⟨rfl, rfl, rfl⟩

-- ## Round trips of the persistence codec

theorem keysOf_append (c d : Counts) : keysOf (c ++ d) = keysOf c ++ keysOf d :=
  List.map_append _ c d

theorem setCount_append_of_not_mem (c : Counts) (i v : Int) (h : i ∉ keysOf c) :
    setCount c i v = c ++ [(i, v)] := by
  induction c with
  | nil => rfl
  | cons p ps ih =>
    have hp : ¬ p.1 = i := by
      intro he
      apply h
      show i ∈ p.1 :: keysOf ps
      rw [he]
      exact List.mem_cons_self i _
    show setCount (p :: ps) i v = p :: (ps ++ [(i, v)])
    unfold setCount
    rw [if_neg hp, ih (fun hm => h (List.mem_cons_of_mem _ hm))]

theorem parseCountsFields_save (l : Counts) :
    ∀ acc : Counts, (keysOf (acc ++ l)).Nodup →
      parseCountsFields acc (l.map (fun p => (pyStrInt p.1, Json.num p.2))) =
        Except.ok (acc ++ l) := by
  induction l with
  | nil =>
    intro acc _
    simp [parseCountsFields]
  | cons p ps ih =>
    intro acc hnodup
    obtain ⟨i, v⟩ := p
    rw [List.map_cons]
    simp only [parseCountsFields]
    rw [pyIntParse_pyStrInt]
    show parseCountsFields (setCount acc i v)
        (ps.map (fun p => (pyStrInt p.1, Json.num p.2))) =
      Except.ok (acc ++ (i, v) :: ps)
    have hnotin : i ∉ keysOf acc := by
      rw [keysOf_append] at hnodup
      intro hmem
      exact (List.nodup_append.mp hnodup).2.2 hmem (List.mem_cons_self i _)
    have hnodup2 : (keysOf ((acc ++ [(i, v)]) ++ ps)).Nodup := by
      rw [List.append_assoc]
      exact hnodup
    rw [setCount_append_of_not_mem acc i v hnotin, ih (acc ++ [(i, v)]) hnodup2,
      List.append_assoc]
    rfl

theorem parseCountsDict_save (st : AppState) (h : KeysNodup st.counts) :
    parseCountsDict (save_counts_json st) = Except.ok st.counts := by
  unfold parseCountsDict save_counts_json
  have hres := parseCountsFields_save st.counts [] (by simpa using h)
  simpa using hres

/-- C6: for every reachable counter-store state (a Python dict, so its
keys are pairwise distinct), importing the export of the counts succeeds
and reinstalls literally the same key-to-count mapping — in particular the
same mapping up to order — and leaves the whole session state (config
included) as it was. -/
theorem C6_counts_roundtrip (st : AppState) (h : KeysNodup st.counts) :
    parseCountsDict (save_counts_json st) = Except.ok st.counts ∧
    (load_counts_from_text st (some (save_counts_json st))).1 = st ∧
    (load_counts_from_text st (some (save_counts_json st))).2.2 =
      format_counts_for_table st.counts := by
  have hp := parseCountsDict_save st h
  refine ⟨hp, ?_, ?_⟩
  · simp only [load_counts_from_text]
    rw [hp]
  · simp only [load_counts_from_text]
    rw [hp]

theorem C6_witness :
    parseCountsDict (save_counts_json ⟨[(3, 4), (-7, 2)], 10, 3, 1⟩) =
      Except.ok [(3, 4), (-7, 2)] ∧
    (load_counts_from_text ⟨[(3, 4), (-7, 2)], 10, 3, 1⟩
        (some (save_counts_json ⟨[(3, 4), (-7, 2)], 10, 3, 1⟩))).1 =
      ⟨[(3, 4), (-7, 2)], 10, 3, 1⟩ ∧
    (load_counts_from_text ⟨[(3, 4), (-7, 2)], 10, 3, 1⟩
        (some (save_counts_json ⟨[(3, 4), (-7, 2)], 10, 3, 1⟩))).2.2 =
      format_counts_for_table [(3, 4), (-7, 2)] :=
  C6_counts_roundtrip ⟨[(3, 4), (-7, 2)], 10, 3, 1⟩ (by decide)

/-- C7: for every reachable session state, importing the full export
succeeds with the success message and restores the identical counter
mapping and the identical `(N, k, start)` configuration. -/
theorem C7_full_roundtrip (st : AppState) (h : KeysNodup st.counts) :
    load_full_from_text st (some (save_full_json st)) =
      (st, "✅ Full progress restored.", format_counts_for_table st.counts,
        st.N, st.k, st.start) := by
  have hp := parseCountsDict_save st h
  simp only [load_full_from_text,
    show getField (save_full_json st) "appearance_counts" =
      Except.ok (save_counts_json st) from rfl, hp]
  rfl

theorem C7_witness :
    load_full_from_text ⟨[(3, 4), (-7, 2)], 6, 2, 0⟩
        (some (save_full_json ⟨[(3, 4), (-7, 2)], 6, 2, 0⟩)) =
      (⟨[(3, 4), (-7, 2)], 6, 2, 0⟩, "✅ Full progress restored.",
        format_counts_for_table [(3, 4), (-7, 2)], 6, 2, 0) :=
  C7_full_roundtrip ⟨[(3, 4), (-7, 2)], 6, 2, 0⟩ (by decide)

-- ## Failure behaviour of `importFull` (C3)

/-- The C3 counterexample input: well-formed JSON with `appearance_counts`
present but `N`, `k`, `start` missing. -/
def c3input : Option Json :=
  some (Json.obj [("appearance_counts", Json.obj [("2", Json.num 7)])])

/-- The prior session state of the C3 counterexample. -/
def c3prior : AppState := ⟨[(1, 5)], 10, 3, 1⟩

/-- C3 counterexample: importing `{"appearance_counts": {"2": 7}}` over
the prior store `{1: 5}` fails (the returned message is the error report),
yet the counter store has been replaced by the imported counts — the prior
state is NOT left unchanged, contrary to the claim. -/
theorem C3_counterexample :
    (load_full_from_text c3prior c3input).2.1 = "Error loading data: KeyError: N" ∧
    (load_full_from_text c3prior c3input).1.counts = [(2, 7)] ∧
    [(2, 7)] ≠ c3prior.counts := by
  refine ⟨rfl, rfl, by decide⟩

/-- C3 amended: when `importFull` fails, the RangeConfig is always left at
its prior value; the counter store is also left unchanged in every failure
mode except one — when the `appearance_counts` member itself imports
successfully but `N`, `k` or `start` is then missing, the store has
already been replaced by the successfully imported counts (the Python
assignment on line 123 of `app.py` precedes the config update). -/
theorem C3_import_failure_state (st : AppState) (txt : Option Json)
    (hfail : (load_full_from_text st txt).2.1 ≠ "✅ Full progress restored.") :
    ((load_full_from_text st txt).1.N = st.N ∧
     (load_full_from_text st txt).1.k = st.k ∧
     (load_full_from_text st txt).1.start = st.start) ∧
    ((load_full_from_text st txt).1.counts = st.counts ∨
      ∃ contents ac, txt = some contents ∧
        getField contents "appearance_counts" = Except.ok ac ∧
        parseCountsDict ac = Except.ok (load_full_from_text st txt).1.counts) := by
  cases txt with
  | none => exact ⟨⟨rfl, rfl, rfl⟩, Or.inl rfl⟩
  | some contents =>
    cases hac : getField contents "appearance_counts" with
    | error e =>
      have hres : load_full_from_text st (some contents) =
          (st, s!"Error loading data: {e}", format_counts_for_table st.counts,
            st.N, st.k, st.start) := by
        simp only [load_full_from_text, hac]
      rw [hres]
      exact ⟨⟨rfl, rfl, rfl⟩, Or.inl rfl⟩
    | ok ac =>
      cases hpc : parseCountsDict ac with
      | error e =>
        have hres : load_full_from_text st (some contents) =
            (st, s!"Error loading data: {e}", format_counts_for_table st.counts,
              st.N, st.k, st.start) := by
          simp only [load_full_from_text, hac, hpc]
        rw [hres]
        exact ⟨⟨rfl, rfl, rfl⟩, Or.inl rfl⟩
      | ok newCounts =>
        cases hN : getField contents "N" with
        | error e =>
          have hres : load_full_from_text st (some contents) =
              ({ st with counts := newCounts }, s!"Error loading data: {e}",
                format_counts_for_table newCounts, st.N, st.k, st.start) := by
            simp only [load_full_from_text, hac, hpc, hN]
          rw [hres]
          exact ⟨⟨rfl, rfl, rfl⟩, Or.inr ⟨contents, ac, rfl, hac, hpc⟩⟩
        | ok vN =>
          cases hk2 : getField contents "k" with
          | error e =>
            have hres : load_full_from_text st (some contents) =
                ({ st with counts := newCounts }, s!"Error loading data: {e}",
                  format_counts_for_table newCounts, st.N, st.k, st.start) := by
              simp only [load_full_from_text, hac, hpc, hN, hk2]
            rw [hres]
            exact ⟨⟨rfl, rfl, rfl⟩, Or.inr ⟨contents, ac, rfl, hac, hpc⟩⟩
          | ok vk =>
            cases hs2 : getField contents "start" with
            | error e =>
              have hres : load_full_from_text st (some contents) =
                  ({ st with counts := newCounts }, s!"Error loading data: {e}",
                    format_counts_for_table newCounts, st.N, st.k, st.start) := by
                simp only [load_full_from_text, hac, hpc, hN, hk2, hs2]
              rw [hres]
              exact ⟨⟨rfl, rfl, rfl⟩, Or.inr ⟨contents, ac, rfl, hac, hpc⟩⟩
            | ok vs =>
              cases vN with
              | obj f1 =>
                have hres : load_full_from_text st (some contents) =
                    ({ st with counts := newCounts },
                      "Error loading data: unsupported config value",
                      format_counts_for_table newCounts, st.N, st.k, st.start) := by
                  simp only [load_full_from_text, hac, hpc, hN, hk2, hs2]
                rw [hres]
                exact ⟨⟨rfl, rfl, rfl⟩, Or.inr ⟨contents, ac, rfl, hac, hpc⟩⟩
              | num n1 =>
                cases vk with
                | obj f2 =>
                  have hres : load_full_from_text st (some contents) =
                      ({ st with counts := newCounts },
                        "Error loading data: unsupported config value",
                        format_counts_for_table newCounts, st.N, st.k, st.start) := by
                    simp only [load_full_from_text, hac, hpc, hN, hk2, hs2]
                  rw [hres]
                  exact ⟨⟨rfl, rfl, rfl⟩, Or.inr ⟨contents, ac, rfl, hac, hpc⟩⟩
                | num n2 =>
                  cases vs with
                  | obj f3 =>
                    have hres : load_full_from_text st (some contents) =
                        ({ st with counts := newCounts },
                          "Error loading data: unsupported config value",
                          format_counts_for_table newCounts, st.N, st.k, st.start) := by
                      simp only [load_full_from_text, hac, hpc, hN, hk2, hs2]
                    rw [hres]
                    exact ⟨⟨rfl, rfl, rfl⟩, Or.inr ⟨contents, ac, rfl, hac, hpc⟩⟩
                  | num n3 =>
                    exfalso
                    apply hfail
                    have hres : load_full_from_text st (some contents) =
                        ({ st with counts := newCounts, N := n1, k := n2, start := n3 },
                          "✅ Full progress restored.",
                          format_counts_for_table newCounts, n1, n2, n3) := by
                      simp only [load_full_from_text, hac, hpc, hN, hk2, hs2]
                    rw [hres]

theorem C3_witness :
    ((load_full_from_text c3prior c3input).1.N = c3prior.N ∧
     (load_full_from_text c3prior c3input).1.k = c3prior.k ∧
     (load_full_from_text c3prior c3input).1.start = c3prior.start) ∧
    ((load_full_from_text c3prior c3input).1.counts = c3prior.counts ∨
      ∃ contents ac, c3input = some contents ∧
        getField contents "appearance_counts" = Except.ok ac ∧
        parseCountsDict ac = Except.ok (load_full_from_text c3prior c3input).1.counts) :=
  C3_import_failure_state c3prior c3input (by decide)

-- ## Failure rendering (C8)

theorem load_counts_table_renders_state (st : AppState) (txt : Option Json) :
    (load_counts_from_text st txt).2.2 =
      format_counts_for_table (load_counts_from_text st txt).1.counts := by
  cases txt with
  | none => rfl
  | some contents =>
    cases hpc : parseCountsDict contents with
    | error e => simp only [load_counts_from_text, hpc]
    | ok nc => simp only [load_counts_from_text, hpc]

theorem load_full_table_renders_state (st : AppState) (txt : Option Json) :
    (load_full_from_text st txt).2.2.1 =
      format_counts_for_table (load_full_from_text st txt).1.counts := by
  cases txt with
  | none => rfl
  | some contents =>
    cases hac : getField contents "appearance_counts" with
    | error e => simp only [load_full_from_text, hac]
    | ok ac =>
      cases hpc : parseCountsDict ac with
      | error e => simp only [load_full_from_text, hac, hpc]
      | ok nc =>
        cases hN : getField contents "N" with
        | error e => simp only [load_full_from_text, hac, hpc, hN]
        | ok vN =>
          cases hk2 : getField contents "k" with
          | error e => simp only [load_full_from_text, hac, hpc, hN, hk2]
          | ok vk =>
            cases hs2 : getField contents "start" with
            | error e => simp only [load_full_from_text, hac, hpc, hN, hk2, hs2]
            | ok vs =>
              cases vN <;> cases vk <;> cases vs <;>
                simp only [load_full_from_text, hac, hpc, hN, hk2, hs2]

/-- C8 counterexample: with the nonempty store `{1: 2}`, the `k > N`
validation failure of `generate` returns an EMPTY table — not the current
counter-store state rendered for display, which would be `[(1, 2)]`. -/
theorem C8_counterexample :
    (generate_fair_batch idSource ⟨[(1, 2)], 10, 3, 1⟩ 5 6 1).2 =
      Except.ok { message := "❌ Batch size 6 cannot exceed N=5.",
                  table := [], batch := [] } ∧
    format_counts_for_table ([(1, 2)] : Counts) = [(1, 2)] ∧
    ([] : List (Int × Int)) ≠ [(1, 2)] :=
  ⟨rfl, rfl, by decide⟩

/-- C8 amended: every failing core operation still returns a renderable
message, and the import failure paths return the current (best-available)
store rendered for display — indeed both import routines always return the
table rendered from the very state they return — but `generate`
validation failure returns its message with an EMPTY table instead of the
rendered current store. -/
theorem C8_failure_rendering (st : AppState) (txt : Option Json)
    (r : RandomSource) (N k start : Int) (hk : k > N) :
    (generate_fair_batch r st N k start).2 =
      Except.ok { message := s!"❌ Batch size {k} cannot exceed N={N}.",
                  table := [], batch := [] } ∧
    (load_counts_from_text st txt).2.2 =
      format_counts_for_table (load_counts_from_text st txt).1.counts ∧
    (load_full_from_text st txt).2.2.1 =
      format_counts_for_table (load_full_from_text st txt).1.counts := by
  refine ⟨?_, load_counts_table_renders_state st txt,
    load_full_table_renders_state st txt⟩
  rw [generate_validation r st N k start hk]

theorem C8_witness :
    (generate_fair_batch idSource ⟨[(1, 2)], 10, 3, 1⟩ 5 6 1).2 =
      Except.ok { message := s!"❌ Batch size {(6 : Int)} cannot exceed N={(5 : Int)}.",
                  table := [], batch := [] } ∧
    (load_counts_from_text ⟨[(1, 2)], 10, 3, 1⟩ none).2.2 =
      format_counts_for_table (load_counts_from_text ⟨[(1, 2)], 10, 3, 1⟩ none).1.counts ∧
    (load_full_from_text ⟨[(1, 2)], 10, 3, 1⟩ none).2.2.1 =
      format_counts_for_table (load_full_from_text ⟨[(1, 2)], 10, 3, 1⟩ none).1.counts :=
  C8_failure_rendering ⟨[(1, 2)], 10, 3, 1⟩ none idSource 5 6 1 (by decide)

-- ## Materialization of in-range entries (C9)

/-- C9: every successful `generate` call materializes an entry for every
item of `[start, start+N)` in the counter store — not only for the `k`
batch members — and an in-range item that was absent before and not
selected now holds the entry `(i, 0)`, which consequently appears in the
returned table and in the exportCounts output of the new state. -/
theorem C9_materializes_range (r : RandomSource) (st : AppState)
    (N k start : Int) (res : GenResult) (hk : ¬ k > N)
    (hok : (generate_fair_batch r st N k start).2 = Except.ok res) :
    (∀ i ∈ fullRange start N,
      (lookupKey i (generate_fair_batch r st N k start).1.counts).isSome) ∧
    ∀ i ∈ fullRange start N, i ∉ res.batch → lookupKey i st.counts = none →
      lookupKey i (generate_fair_batch r st N k start).1.counts = some 0 ∧
      (i, 0) ∈ res.table ∧
      (pyStrInt i, Json.num 0) ∈
        jsonFields (save_counts_json (generate_fair_batch r st N k start).1) := by
  cases hm : minCountOf st.counts N start with
  | none =>
    rw [generate_crash r st N k start hk hm] at hok
    simp at hok
  | some m =>
    obtain ⟨hstate, msg, hres⟩ := generate_main r st N k start m hk hm
    rw [hres] at hok
    have hresval : res =
        { message := msg,
          table := format_counts_for_table (genCounts r st.counts N k start),
          batch := genBatch r st.counts N k start } := by
      injection hok with h
      exact h.symm
    subst hresval
    rw [hstate]
    constructor
    · intro i hi
      show (lookupKey i (genCounts r st.counts N k start)).isSome
      unfold genCounts
      apply lookupKey_isSome_foldl_incrCount
      exact lookupKey_touchAll_mem st.counts (fullRange start N) i hi
    · intro i hi hnb hnone
      have hlook : lookupKey i (genCounts r st.counts N k start) = some 0 := by
        unfold genCounts
        rw [lookupKey_foldl_incrCount_not_mem _ _ _ hnb, lookupKey_touchAll, hnone]
        simp [hi]
      refine ⟨hlook, ?_, ?_⟩
      · show (i, 0) ∈ format_counts_for_table (genCounts r st.counts N k start)
        rw [mem_format_counts]
        exact lookupKey_some_mem _ i 0 hlook
      · show (pyStrInt i, Json.num 0) ∈
          (genCounts r st.counts N k start).map (fun p => (pyStrInt p.1, Json.num p.2))
        exact List.mem_map_of_mem _ (lookupKey_some_mem _ i 0 hlook)

theorem C9_witness :
    (lookupKey 0 (generate_fair_batch idSource initialState 3 1 0).1.counts).isSome ∧
    (lookupKey 0 (generate_fair_batch idSource initialState 3 1 0).1.counts = some 0 ∧
      (0, 0) ∈ ({ message := "2", table := [(0, 0), (1, 0), (2, 1)], batch := [2] } :
        GenResult).table ∧
      (pyStrInt 0, Json.num 0) ∈
        jsonFields (save_counts_json (generate_fair_batch idSource initialState 3 1 0).1)) := by
  have h := C9_materializes_range idSource initialState 3 1 0
    { message := "2", table := [(0, 0), (1, 0), (2, 1)], batch := [2] }
    (by decide) (by rfl)
  exact ⟨h.1 0 (by decide), h.2 0 (by decide) (by decide) (by rfl)⟩

-- ## importCounts accepts arbitrary values (C10)

/-- C10: `importCounts` performs no validation of count values — the
well-formed input `{"1": -5}` imports successfully (success message, state
installed) and leaves item 1 with the negative count −5, so the
all-counts-nonnegative invariant is not enforced at the import boundary. -/
theorem C10_import_no_value_validation :
    (load_counts_from_text initialState
        (some (Json.obj [("1", Json.num (-5))]))).2.1 =
      "✅ Appearance counts loaded successfully." ∧
    (load_counts_from_text initialState
        (some (Json.obj [("1", Json.num (-5))]))).1.counts = [(1, -5)] ∧
    getCount [(1, -5)] 1 < 0 :=
  ⟨rfl, rfl, by decide⟩
